import Mathlib

/-!
Shallow embedding of the Concept Store & Hierarchy Engine of the
concept-tracker repository (src/mcp-server/src/services/storage.ts,
export.ts, scanner.ts and src/mcp-server/src/types/concept.ts), together
with proofs settling the frozen claims about it.

Conventions of the embedding:
* ISO-8601 timestamps are opaque strings; every operation receives the
  string produced by `new Date().toISOString()` as a `now` argument.
* `uuidv4()` is modelled by a `freshId : String` argument.
* JavaScript truthiness on optional string fields (`if (x)` where `x` is
  `string | undefined | null`) holds exactly when the value is present and
  non-empty; `optTruthy` captures this.
* Persistence: `save()` stamps `lastUpdated` with the current time and
  rewrites the document.  Operations below return the full post-state plus
  a `saved` flag recording whether `save()` ran, so that "store left
  byte-for-byte unchanged / no save performed" is directly statable.
-/

namespace ConceptTracker

/-- Provenance record, from `ChatSnippet` in types/concept.ts
(`{ timestamp: string, content: string }`). -/
structure ChatSnippet where
  timestamp : String
  content : String
deriving DecidableEq, Repr

/-- A concept, from `Concept` in types/concept.ts.  `category` is one of
the four enum strings; it is kept as a `String` since no claim depends on
the enumeration being closed.  `parent` is the optional name-reference. -/
structure Concept where
  id : String
  name : String
  category : String
  parent : Option String
  explanation : String
  chatSnippets : List ChatSnippet
  codeLocations : List String
  firstSeen : String
  lastSeen : String
deriving DecidableEq, Repr

/-- The aggregate root, from `ConceptStore` in types/concept.ts. -/
structure ConceptStore where
  version : String
  concepts : List Concept
  lastUpdated : String
deriving DecidableEq, Repr

/-- External input shape, from `ExtractedConcept` in types/concept.ts. -/
structure ExtractedConcept where
  name : String
  category : String
  parent : Option String
  explanation : String
deriving DecidableEq, Repr

/-- Errors thrown by StorageService: `Concept not found: ...`,
`Parent concept not found: ...`, `Cannot create circular reference`. -/
inductive StorageError where
  | notFound (id : String)
  | parentNotFound (name : String)
  | circularReference
deriving DecidableEq, Repr

/-- JavaScript truthiness of an optional string value. -/
def optTruthy : Option String → Bool
  | none => false
  | some s => s ≠ ""

instance : DecidableEq (Except StorageError Concept)
  | .error x, .error y =>
      if h : x = y then .isTrue (congrArg Except.error h)
      else .isFalse (fun he => h (Except.error.inj he))
  | .error _, .ok _ => .isFalse Except.noConfusion
  | .ok _, .error _ => .isFalse Except.noConfusion
  | .ok x, .ok y =>
      if h : x = y then .isTrue (congrArg Except.ok h)
      else .isFalse (fun he => h (Except.ok.inj he))

/-- Outcome of a mutating StorageService call: the thrown error or the
returned concept, the resulting store, and whether `save()` ran. -/
structure MutationOutcome where
  result : Except StorageError Concept
  store : ConceptStore
  saved : Bool
deriving DecidableEq, Repr

/-- JavaScript `String.prototype.toLowerCase()` restricted to its ASCII action
(concept names are compared with it); character-list map keeps the
definition kernel-reducible. -/
def lowerString (s : String) : String :=
  ⟨s.data.map Char.toLower⟩

/-- Source `getConceptByName`: case-insensitive first match
(`concepts.find(c => c.name.toLowerCase() === name.toLowerCase())`). -/
def getConceptByName (store : ConceptStore) (name : String) : Option Concept :=
  store.concepts.find? (fun c => lowerString c.name = lowerString name)

/-- In-place mutation of `store.concepts[index]` where `index` is
`findIndex(c => c.id === id)`: replace the first element whose id matches. -/
def replaceFirstById (l : List Concept) (id : String) (c' : Concept) : List Concept :=
  match l with
  | [] => []
  | c :: rest => if c.id = id then c' :: rest else c :: replaceFirstById rest id c'

/-- JavaScript `[...new Set([...xs, ...ys])]`: union keeping first-occurrence order. -/
def jsSetUnion (xs ys : List String) : List String :=
  (xs ++ ys).foldl (fun acc x => if x ∈ acc then acc else acc ++ [x]) []

/-- The partial-update payload of `updateConcept`. -/
structure ConceptUpdates where
  name : Option String := none
  explanation : Option String := none
  chatSnippet : Option String := none
  codeLocations : Option (List String) := none
deriving DecidableEq, Repr

/-- The field mutations performed by `updateConcept` on the found concept:
`if (updates.name) ...`, `if (updates.explanation) ...`,
`if (updates.chatSnippet) push {timestamp: now, content}`,
`if (updates.codeLocations) union`, then `concept.lastSeen = now`.
An array value is always truthy in JavaScript, so `codeLocations` is
applied whenever present, even when empty. -/
def applyUpdates (c : Concept) (u : ConceptUpdates) (now : String) : Concept :=
  let c1 :=
    match u.name with
    | some s => if s = "" then c else { c with name := s }
    | none => c
  let c2 :=
    match u.explanation with
    | some s => if s = "" then c1 else { c1 with explanation := s }
    | none => c1
  let c3 :=
    match u.chatSnippet with
    | some s =>
        if s = "" then c2
        else { c2 with chatSnippets := c2.chatSnippets ++ [({ timestamp := now, content := s } : ChatSnippet)] }
    | none => c2
  let c4 :=
    match u.codeLocations with
    | some ls => { c3 with codeLocations := jsSetUnion c3.codeLocations ls }
    | none => c3
  { c4 with lastSeen := now }

/-- Source `StorageService.updateConcept`. -/
def updateConcept (store : ConceptStore) (id : String) (u : ConceptUpdates)
    (now : String) : MutationOutcome :=
  match store.concepts.find? (fun c => c.id = id) with
  | none => ⟨.error (.notFound id), store, false⟩
  | some c =>
      let c' := applyUpdates c u now
      ⟨.ok c', ⟨store.version, replaceFirstById store.concepts id c', now⟩, true⟩

/-- Source `StorageService.addConcept` (the add-from-extraction entry point):
merge into the concept with the same (case-insensitive) name when one
exists, otherwise create a fresh concept and append it. -/
def addConcept (store : ConceptStore) (extracted : ExtractedConcept)
    (chatSnippet : Option String) (freshId : String) (now : String) :
    MutationOutcome :=
  match getConceptByName store extracted.name with
  | some existing => updateConcept store existing.id { chatSnippet := chatSnippet } now
  | none =>
      let concept : Concept :=
        { id := freshId
          name := extracted.name
          category := extracted.category
          parent := extracted.parent
          explanation := extracted.explanation
          chatSnippets :=
            match chatSnippet with
            | some s => if s = "" then [] else [⟨now, s⟩]
            | none => []
          codeLocations := []
          firstSeen := now
          lastSeen := now }
      ⟨.ok concept, ⟨store.version, store.concepts ++ [concept], now⟩, true⟩

/-- One step of the parent-name chain as walked by the code: resolve the
name (first match), then its `parent` field.  The empty string is never
entered (the `while (current)` guard), so it has no outgoing step. -/
def walkStep (concepts : List Concept) (n : String) : Option String :=
  if n = "" then none
  else
    match concepts.find? (fun c => c.name = n) with
    | none => none
    | some c => c.parent

/-- Iterated `walkStep`: the node reached after `k` steps, if the chain
survives that long. -/
def iterWalk (concepts : List Concept) : Nat → String → Option String
  | 0, n => some n
  | k + 1, n =>
      match walkStep concepts n with
      | none => none
      | some m => iterWalk concepts k m

/-- Acyclicity of the parent graph `child.parent -> parentName`: no name
returns to itself after a positive number of steps. -/
def GraphAcyclic (concepts : List Concept) : Prop :=
  ∀ n k, 0 < k → iterWalk concepts k n ≠ some n

/-- The truthiness-filtered parent reference used by
`ExportService.buildTree` (`concept.parent && ...`). -/
def truthyParent (c : Concept) : Option String :=
  match c.parent with
  | some p => if p = "" then none else some p
  | none => none

/-- The map test `nodeMap.has(n)` after the first loop of `buildTree`: the map is keyed
by concept name, so membership is "some concept bears this name". -/
def nodeMapHas (l : List Concept) (n : String) : Bool :=
  l.any (fun c => c.name = n)

/-- The attachment test of `buildTree`'s second loop:
`concept.parent && nodeMap.has(concept.parent)`. -/
def attachesToParent (l : List Concept) (c : Concept) : Bool :=
  match truthyParent c with
  | some p => nodeMapHas l p
  | none => false

/-- The concepts whose nodes `buildTree` pushes into `roots`, in input
order: exactly those failing the attachment test. -/
def buildTreeRootConcepts (l : List Concept) : List Concept :=
  l.filter (fun c => ! attachesToParent l c)

/-- The concepts whose nodes `buildTree` pushes into the children list of
the node named `n`, in input order. -/
def buildTreeChildConcepts (l : List Concept) (n : String) : List Concept :=
  l.filter (fun c => attachesToParent l c && (truthyParent c == some n))

/-- The JSON documents produced by `ExportService.exportAsJson` before
`JSON.stringify`.  Only the constructors that exporter output uses. -/
inductive Json where
  | null
  | str (s : String)
  | num (n : Nat)
  | arr (elems : List Json)
  | obj (fields : List (String × Json))

/-- Re-parsing primitive: object field lookup. -/
def Json.getField : Json → String → Option Json
  | .obj fields, key => (fields.find? (fun kv => kv.1 = key)).map (fun kv => kv.2)
  | _, _ => none

def snippetToJson (s : ChatSnippet) : Json :=
  .obj [("timestamp", .str s.timestamp), ("content", .str s.content)]

/-- One element of the `exportData` array of `exportAsJson`: the record
`{id, name, category, parent, explanation, firstSeen, lastSeen}` plus
`chatSnippets` unless `includeSnippets === false` and `codeLocations`
unless `includeCodeLocations === false`.  `JSON.stringify` omits
properties whose value is `undefined`, so an absent `parent` produces no
`parent` field in the emitted document. -/
def conceptToJsonRecord (c : Concept) (includeSnippets includeCodeLocations : Option Bool) :
    Json :=
  .obj
    ([("id", Json.str c.id), ("name", Json.str c.name),
        ("category", Json.str c.category)]
      ++ (match c.parent with
          | some p => [("parent", Json.str p)]
          | none => [])
      ++ [("explanation", Json.str c.explanation),
          ("firstSeen", Json.str c.firstSeen),
          ("lastSeen", Json.str c.lastSeen)]
      ++ (if includeSnippets = some false then []
          else [("chatSnippets", Json.arr (c.chatSnippets.map snippetToJson))])
      ++ (if includeCodeLocations = some false then []
          else [("codeLocations", Json.arr (c.codeLocations.map Json.str))]))

/-- Source `ExportService.exportAsJson`: the envelope
`{exportedAt, count, concepts}`. -/
def exportAsJson (concepts : List Concept)
    (includeSnippets includeCodeLocations : Option Bool) (exportedAt : String) :
    Json :=
  .obj
    [("exportedAt", Json.str exportedAt),
      ("count", Json.num concepts.length),
      ("concepts", Json.arr
        (concepts.map (fun c => conceptToJsonRecord c includeSnippets includeCodeLocations)))]

/-- Re-parse a chat-snippet record emitted by `snippetToJson`. -/
def decodeSnippet (j : Json) : Option ChatSnippet :=
  match j.getField "timestamp", j.getField "content" with
  | some (.str t), some (.str c) => some ⟨t, c⟩
  | _, _ => none

/-- JavaScript `\w` (`gi` flags, no unicode flag): ASCII letters, digits,
underscore. -/
def isWordChar (c : Char) : Bool :=
  c.isAlphanum || c = '_'

/-- Whether position `i` of the line holds a word character (out of
bounds counts as non-word). -/
def wordAt (s : List Char) (i : Nat) : Bool :=
  match s.get? i with
  | some c => isWordChar c
  | none => false

/-- The `\b` assertion between positions `i-1` and `i` (position 0
compares against a virtual non-word left side). -/
def boundaryAt (s : List Char) (i : Nat) : Bool :=
  (if i = 0 then false else wordAt s (i - 1)) != wordAt s i

/-- Case-insensitive literal occurrence of `p` at offset `i` of `s`
(the concept name is regex-escaped in the source, hence literal). -/
def matchAt (s p : List Char) (i : Nat) : Bool :=
  ((s.drop i).take p.length).map Char.toLower == p.map Char.toLower

/-- The test `new RegExp('\\b' + escapeRegex(name) + '\\b', 'gi').test(line)`:
some offset carries a case-insensitive literal occurrence of `name` with
word boundaries on both sides. -/
def lineMatches (name : String) (line : String) : Bool :=
  (List.range (line.data.length + 1)).any (fun i =>
    matchAt line.data name.data i && boundaryAt line.data i &&
      boundaryAt line.data (i + name.data.length))

/-- Source `line.trim().slice(0, 100)`: strip leading and trailing whitespace,
then keep the first 100 characters. -/
def trimTruncate (line : String) : String :=
  ⟨(((line.data.dropWhile Char.isWhitespace).reverse.dropWhile
      Char.isWhitespace).reverse).take 100⟩

/-- A candidate file as the scanner sees it: the path relative to the
scan root (`path.relative(rootPath, file)`) and the lines of its content
after `content.split('\n')`. -/
structure ScanFile where
  relPath : String
  lines : List String
deriving DecidableEq, Repr

/-- Structure `CodeLocation` from scanner.ts. -/
structure CodeLocation where
  file : String
  line : Nat
  context : String
deriving DecidableEq, Repr

/-- The per-file inner loops of `ScannerService.scanForConcept`: for each
line index `i`, on a whole-word match push
`{file: relativePath, line: i + 1, context: lines[i].trim().slice(0,100)}`. -/
def scanFileForConcept (name : String) (f : ScanFile) : List CodeLocation :=
  (f.lines.enum.filter (fun p => lineMatches name p.2)).map
    (fun p => ⟨f.relPath, p.1 + 1, trimTruncate p.2⟩)

/-- Source `ScannerService.scanForConcept` over the candidate files delivered by
the filesystem walk (modelled as the input list, in walk order). -/
def scanForConcept (c : Concept) (files : List ScanFile) : List CodeLocation :=
  (files.map (scanFileForConcept c.name)).flatten

/-- JavaScript `Map.prototype.set` on an association list: overwrite in
place if the key exists, else append. -/
def mapSet (m : List (String × List CodeLocation)) (k : String)
    (v : List CodeLocation) : List (String × List CodeLocation) :=
  if m.any (fun kv => kv.1 = k) then
    m.map (fun kv => if kv.1 = k then (k, v) else kv)
  else m ++ [(k, v)]

/-- JavaScript `Map.prototype.get`. -/
def mapLookup (m : List (String × List CodeLocation)) (k : String) :
    Option (List CodeLocation) :=
  (m.find? (fun kv => kv.1 = k)).map (fun kv => kv.2)

/-- Source `ScannerService.scanAllConcepts`: scan each concept, recording ids
with at least one location. -/
def scanAllConcepts (concepts : List Concept) (files : List ScanFile) :
    List (String × List CodeLocation) :=
  concepts.foldl
    (fun acc c =>
      if (scanForConcept c files).length > 0 then
        mapSet acc c.id (scanForConcept c files)
      else acc)
    []

/-- Source `StorageService.load()`: the cached store wins; otherwise the backing
document is read and validated, modelled by `disk` (`.error` standing for
any read or parse failure, including a missing file), and failure falls
back to the fresh empty store `{version: '1.0.0', concepts: [],
lastUpdated: now}`. -/
def loadStore (cached : Option ConceptStore) (disk : Except String ConceptStore)
    (now : String) : ConceptStore :=
  match cached with
  | some s => s
  | none =>
      match disk with
      | .ok s => s
      | .error _ => ⟨"1.0.0", [], now⟩

/-- Pointwise monotonicity of `List.filter` length. -/
theorem lengthFilterMono {α : Type} (p q : α → Bool) (l : List α)
    (h : ∀ a ∈ l, p a = true → q a = true) :
    (l.filter p).length ≤ (l.filter q).length := by
  induction l with
  | nil => simp
  | cons x xs ih =>
      have hx := h x (by simp)
      have ht : ∀ a ∈ xs, p a = true → q a = true := fun a ha => h a (by simp [ha])
      simp only [List.filter_cons]
      cases hp : p x with
      | false =>
          cases hq : q x
          · exact ih ht
          · exact Nat.le_succ_of_le (ih ht)
      | true =>
          rw [hx hp]
          simpa using ih ht

/-- Strict decrease of the termination measure of `cycleWalk`: marking a
so-far-unvisited name that occurs among the concept names shrinks the
list of unvisited concept names. -/
theorem unvisitedLengthLt (xs : List String) (a : String) (v : List String)
    (hx : a ∈ xs) (hv : a ∉ v) :
    (xs.filter (fun n => decide (n ∉ a :: v))).length <
      (xs.filter (fun n => decide (n ∉ v))).length := by
  induction xs with
  | nil => cases hx
  | cons x xs ih =>
      by_cases hxa : x = a
      · subst hxa
        have hP : decide (x ∉ x :: v) = false := by simp
        have hQ : decide (x ∉ v) = true := by simpa using hv
        simp only [List.filter_cons, hP, hQ, Bool.false_eq_true, if_false,
          if_true, List.length_cons]
        have hle : (xs.filter (fun n => decide (n ∉ x :: v))).length ≤
            (xs.filter (fun n => decide (n ∉ v))).length := by
          apply lengthFilterMono
          intro b _ hb
          simp only [decide_eq_true_eq, List.mem_cons, not_or] at hb ⊢
          exact hb.2
        omega
      · have hx' : a ∈ xs := by
          rcases List.mem_cons.mp hx with h | h
          · exact absurd h.symm hxa
          · exact h
        have hPQ : decide (x ∉ a :: v) = decide (x ∉ v) := by
          by_cases hxv : x ∈ v
          · simp [hxv]
          · simp [hxv, hxa]
        simp only [List.filter_cons, hPQ]
        cases hq : decide (x ∉ v) with
        | false => exact ih hx'
        | true =>
            simp only [List.length_cons]
            exact Nat.succ_lt_succ (ih hx')

/-- The `while (current)` loop of `StorageService.wouldCreateCycle`:
starting from `current`, follow `parent` name-references upward through
`concepts`, tracking `visited` names; report `true` on reaching
`childName` or revisiting a name, `false` on falling off the chain
(empty/absent name, concept without parent).  Terminates because every
iteration marks a fresh concept name as visited. -/
def cycleWalk (concepts : List Concept) (childName : String)
    (current : String) (visited : List String) : Bool :=
  if current = "" then false
  else if current = childName then true
  else if hv : current ∈ visited then true
  else
    match hf : concepts.find? (fun c => c.name = current) with
    | none => false
    | some c =>
        match c.parent with
        | none => false
        | some next => cycleWalk concepts childName next (current :: visited)
termination_by ((concepts.map Concept.name).filter (fun n => decide (n ∉ visited))).length
decreasing_by
  have hc : c ∈ concepts := List.mem_of_find?_eq_some hf
  have hname : c.name = current := by
    have := List.find?_some hf
    simpa using this
  have hmem : current ∈ concepts.map Concept.name := by
    rw [← hname]
    exact List.mem_map_of_mem Concept.name hc
  exact unvisitedLengthLt (concepts.map Concept.name) current visited hmem hv

/-- Source `StorageService.wouldCreateCycle(concepts, childId, parentName)`. -/
def wouldCreateCycle (concepts : List Concept) (childId : String)
    (parentName : String) : Bool :=
  match concepts.find? (fun c => c.id = childId) with
  | none => false
  | some child => cycleWalk concepts child.name parentName []

/-- Source `StorageService.updateConceptParent(id, parent)`: find the concept by
id (error if absent); when `parent` is truthy, require a concept with that
exact name to exist and the cycle walk to fail, erroring otherwise;
then assign `parent || undefined`, bump `lastSeen`, and save. -/
def updateConceptParent (store : ConceptStore) (id : String)
    (parent : Option String) (now : String) : MutationOutcome :=
  match store.concepts.find? (fun c => c.id = id) with
  | none => ⟨.error (.notFound id), store, false⟩
  | some c =>
      let validation : Except StorageError Unit :=
        match parent with
        | none => .ok ()
        | some p =>
            if p = "" then .ok ()
            else if (store.concepts.find? (fun d => d.name = p)).isNone then
              .error (.parentNotFound p)
            else if wouldCreateCycle store.concepts id p then
              .error .circularReference
            else .ok ()
      match validation with
      | .error e => ⟨.error e, store, false⟩
      | .ok _ =>
          let newParent : Option String :=
            match parent with
            | none => none
            | some p => if p = "" then none else some p
          let c' : Concept := { c with parent := newParent, lastSeen := now }
          ⟨.ok c', ⟨store.version, replaceFirstById store.concepts id c', now⟩, true⟩

/-- Unfolding of `cycleWalk` through `walkStep`. -/
theorem cycleWalk_step_eq (l : List Concept) (cn cur : String)
    (vis : List String) :
    cycleWalk l cn cur vis =
      if cur = "" then false
      else if cur = cn then true
      else if cur ∈ vis then true
      else
        match walkStep l cur with
        | none => false
        | some next => cycleWalk l cn next (cur :: vis) := by
  rw [cycleWalk]
  by_cases h1 : cur = ""
  · simp [h1]
  · simp only [if_neg h1, walkStep]
    by_cases h2 : cur = cn
    · simp [h2]
    · simp only [if_neg h2]
      by_cases h3 : cur ∈ vis
      · simp [h3]
      · simp only [dif_neg h3, if_neg h3]
        cases hf : l.find? (fun c => c.name = cur) with
        | none => rfl
        | some c => cases c.parent <;> rfl

/-- If the chain from `cur` reaches `target` (a non-empty name) in `k`
steps, the implemented walk reports a cycle, whatever was visited. -/
theorem iterWalk_reach_cycleWalk (l : List Concept) (target : String)
    (htarget : target ≠ "") :
    ∀ k cur vis, iterWalk l k cur = some target →
      cycleWalk l target cur vis = true := by
  intro k
  induction k with
  | zero =>
      intro cur vis h
      have hcur : cur = target := by simpa [iterWalk] using h
      subst hcur
      rw [cycleWalk_step_eq]
      simp [htarget]
  | succ k ih =>
      intro cur vis h
      rw [iterWalk] at h
      cases hs : walkStep l cur with
      | none => rw [hs] at h; cases h
      | some m =>
          rw [hs] at h
          have hcur : cur ≠ "" := by
            intro hc
            rw [hc] at hs
            simp [walkStep] at hs
          rw [cycleWalk_step_eq]
          by_cases h2 : cur = target

          · simp [hcur, h2, htarget]
          · by_cases h3 : cur ∈ vis
            · simp [hcur, h2, h3]
            · simp only [if_neg hcur, if_neg h2, if_neg h3, hs]
              exact ih m (cur :: vis) h

/-- Splitting an iterated walk. -/
theorem iterWalk_add (l : List Concept) (a b : Nat) (n : String) :
    iterWalk l (a + b) n = (iterWalk l a n).bind (iterWalk l b) := by
  induction a generalizing n with
  | zero => simp [iterWalk]
  | succ a ih =>
      have : a + 1 + b = (a + b) + 1 := by omega
      rw [this, iterWalk, iterWalk]
      cases hs : walkStep l n with
      | none => rfl
      | some m => simpa using ih m

theorem replaceFirstById_length (l : List Concept) (id : String) (c' : Concept) :
    (replaceFirstById l id c').length = l.length := by
  induction l with
  | nil => rfl
  | cons h t ih =>
      unfold replaceFirstById
      by_cases hh : h.id = id <;> simp [hh, ih]

/-- Name-keyed lookup is unchanged by the replacement at any name other
than the (preserved) name of the replaced concept. -/
theorem find_name_replace_ne (l : List Concept) (id : String) (c c' : Concept)
    (hc : l.find? (fun d => d.id = id) = some c) (hname : c'.name = c.name)
    (n : String) (hn : n ≠ c.name) :
    (replaceFirstById l id c').find? (fun x => x.name = n) =
      l.find? (fun x => x.name = n) := by
  induction l with
  | nil => simp [replaceFirstById]
  | cons h t ih =>
      by_cases hh : h.id = id
      · have hch : c = h := by
          rw [List.find?_cons_of_pos _ (by simpa using hh)] at hc
          exact (Option.some.inj hc).symm
        unfold replaceFirstById
        rw [if_pos hh]
        have h1 : ¬ (c'.name = n) := by
          intro hcon
          refine hn ?_
          rw [← hcon, hname]
        have h2 : ¬ (h.name = n) := by
          intro hcon
          refine hn ?_
          rw [hch]
          exact hcon.symm
        rw [List.find?_cons_of_neg _ (by simpa using h1),
          List.find?_cons_of_neg _ (by simpa using h2)]
      · have hct : t.find? (fun d => d.id = id) = some c := by
          rw [List.find?_cons_of_neg _ (by simpa using hh)] at hc
          exact hc
        unfold replaceFirstById
        rw [if_neg hh]
        by_cases hhn : h.name = n
        · rw [List.find?_cons_of_pos _ (by simpa using hhn),
            List.find?_cons_of_pos _ (by simpa using hhn)]
        · rw [List.find?_cons_of_neg _ (by simpa using hhn),
            List.find?_cons_of_neg _ (by simpa using hhn)]
          exact ih hct

/-- Looking up the replaced concept's name after the replacement either
finds the replacement or finds exactly what the old list found (when an
earlier concept shadows the replaced one by name). -/
theorem find_name_replace_self (l : List Concept) (id : String) (c c' : Concept)
    (hc : l.find? (fun d => d.id = id) = some c) (hname : c'.name = c.name) :
    (replaceFirstById l id c').find? (fun x => x.name = c.name) = some c' ∨
      (replaceFirstById l id c').find? (fun x => x.name = c.name) =
        l.find? (fun x => x.name = c.name) := by
  induction l with
  | nil => simp [replaceFirstById]
  | cons h t ih =>
      by_cases hh : h.id = id
      · left
        unfold replaceFirstById
        rw [if_pos hh]
        exact List.find?_cons_of_pos _ (by simpa using hname)
      · have hct : t.find? (fun d => d.id = id) = some c := by
          rw [List.find?_cons_of_neg] at hc
          · exact hc
          · simpa using hh
        unfold replaceFirstById
        rw [if_neg hh]
        by_cases hhn : h.name = c.name
        · right
          rw [List.find?_cons_of_pos _ (by simpa using hhn),
            List.find?_cons_of_pos _ (by simpa using hhn)]
        · rw [List.find?_cons_of_neg _ (by simpa using hhn),
            List.find?_cons_of_neg _ (by simpa using hhn)]
          exact ih hct

theorem walkStep_replace_ne (l : List Concept) (id : String) (c c' : Concept)
    (hc : l.find? (fun d => d.id = id) = some c) (hname : c'.name = c.name)
    (n : String) (hn : n ≠ c.name) :
    walkStep (replaceFirstById l id c') n = walkStep l n := by
  unfold walkStep
  by_cases h0 : n = ""
  · simp [h0]
  · rw [if_neg h0, if_neg h0, find_name_replace_ne l id c c' hc hname n hn]

theorem walkStep_replace_self (l : List Concept) (id : String) (c c' : Concept)
    (hc : l.find? (fun d => d.id = id) = some c) (hname : c'.name = c.name) :
    walkStep (replaceFirstById l id c') c.name =
        (if c.name = "" then none else c'.parent) ∨
      walkStep (replaceFirstById l id c') c.name = walkStep l c.name := by
  rcases find_name_replace_self l id c c' hc hname with h | h
  · left
    unfold walkStep
    by_cases h0 : c.name = ""
    · simp [h0]
    · rw [if_neg h0, if_neg h0, h]
  · right
    unfold walkStep
    by_cases h0 : c.name = ""
    · simp [h0]
    · rw [if_neg h0, if_neg h0, h]

theorem iterWalk_congr (l l' : List Concept)
    (h : ∀ n, walkStep l' n = walkStep l n) :
    ∀ k n, iterWalk l' k n = iterWalk l k n := by
  intro k
  induction k with
  | zero => intro n; rfl
  | succ k ih =>
      intro n
      rw [iterWalk, iterWalk, h n]
      cases walkStep l n with
      | none => rfl
      | some m => exact ih m

/-- A walk in the modified graph that never passes through the modified
name is a walk in the old graph. -/
theorem iterWalk_transfer (l l' : List Concept) (x : String)
    (hstep : ∀ n, n ≠ x → walkStep l' n = walkStep l n) :
    ∀ j s t, iterWalk l' j s = some t →
      (∀ i, i < j → iterWalk l' i s ≠ some x) → iterWalk l j s = some t := by
  intro j
  induction j with
  | zero => intro s t h _; exact h
  | succ j ih =>
      intro s t h havoid
      have hs : s ≠ x := by
        intro hcon
        exact havoid 0 (Nat.succ_pos j) (by simp [iterWalk, hcon])
      rw [iterWalk] at h ⊢
      rw [hstep s hs] at h
      cases hw : walkStep l s with
      | none => rw [hw] at h; cases h
      | some m =>
          rw [hw] at h
          refine ih m t h ?_
          intro i hi hcon
          refine havoid (i + 1) (by omega) ?_
          rw [iterWalk, hstep s hs, hw]
          exact hcon

/-- If the modified-graph walk ever reaches `x`, the old-graph walk
already reaches `x` (take the first visit). -/
theorem iterWalk_first_reach (l l' : List Concept) (x : String)
    (hstep : ∀ n, n ≠ x → walkStep l' n = walkStep l n) :
    ∀ m q, iterWalk l' m q = some x → ∃ j, iterWalk l j q = some x := by
  intro m
  induction m using Nat.strong_induction_on with
  | _ m ih =>
      intro q h
      by_cases hall : ∀ i, i < m → iterWalk l' i q ≠ some x
      · exact ⟨m, iterWalk_transfer l l' x hstep m q x h hall⟩
      · push_neg at hall
        obtain ⟨i, hi, hix⟩ := hall
        exact ih i hi q hix

/-- Rotating a cycle to pass through any of its nodes. -/
theorem iterWalk_cycle_rotate (l : List Concept) (k i : Nat) (n x : String)
    (hik : i ≤ k) (hcyc : iterWalk l k n = some n)
    (hvisit : iterWalk l i n = some x) :
    iterWalk l k x = some x := by
  have h1 : iterWalk l (i + (k - i)) n = some n := by
    rw [Nat.add_sub_cancel' hik]; exact hcyc
  rw [iterWalk_add, hvisit, Option.some_bind] at h1
  have h2 : iterWalk l ((k - i) + i) x = (iterWalk l (k - i) x).bind (iterWalk l i) := iterWalk_add l _ i x
  rw [h1, Option.some_bind, hvisit] at h2
  rw [← Nat.sub_add_cancel hik]
  exact h2

/-- Core preservation lemma: replacing the parent of the concept found by
`id` preserves acyclicity, provided the new parent is either detached or
a non-empty name whose upward walk was certified cycle-free against the
old graph. -/
theorem acyclic_replace (l : List Concept) (id : String) (c c' : Concept)
    (hc : l.find? (fun d => d.id = id) = some c) (hname : c'.name = c.name)
    (hparent : c'.parent = none ∨
      ∃ q, c'.parent = some q ∧ cycleWalk l c.name q [] = false)
    (hacy : GraphAcyclic l) : GraphAcyclic (replaceFirstById l id c') := by
  have hne : ∀ n, n ≠ c.name →
      walkStep (replaceFirstById l id c') n = walkStep l n :=
    fun n hn => walkStep_replace_ne l id c c' hc hname n hn
  rcases walkStep_replace_self l id c c' hc hname with hself | hself
  case inr =>
      have hall : ∀ n, walkStep (replaceFirstById l id c') n = walkStep l n := by
        intro n
        by_cases hn : n = c.name
        · rw [hn]; exact hself
        · exact hne n hn
      intro n k hk
      rw [iterWalk_congr l _ hall k n]
      exact hacy n k hk
  case inl =>
      intro n k hk hcyc
      by_cases hvisit : ∃ i, i ≤ k ∧
          iterWalk (replaceFirstById l id c') i n = some c.name
      · obtain ⟨i, hik, hix⟩ := hvisit
        have hcycx : iterWalk (replaceFirstById l id c') k c.name = some c.name :=
          iterWalk_cycle_rotate _ k i n c.name hik hcyc hix
        obtain ⟨j, hkj⟩ : ∃ j, k = j + 1 := ⟨k - 1, by omega⟩
        rw [hkj, iterWalk] at hcycx
        cases hw : walkStep (replaceFirstById l id c') c.name with
        | none => rw [hw] at hcycx; cases hcycx
        | some m =>
            rw [hw] at hcycx
            rw [hself] at hw
            by_cases h0 : c.name = ""
            · rw [if_pos h0] at hw; cases hw
            · rw [if_neg h0] at hw
              rcases hparent with hp | ⟨q, hpq, hwalk⟩
              · rw [hp] at hw; cases hw
              · rw [hpq] at hw
                have hmq : m = q := (Option.some.inj hw).symm
                subst hmq
                obtain ⟨j', hj'⟩ :=
                  iterWalk_first_reach l _ c.name hne j m hcycx
                have := iterWalk_reach_cycleWalk l c.name h0 j' m [] hj'
                rw [hwalk] at this
                cases this
      · push_neg at hvisit
        have havoid : ∀ i, i < k →
            iterWalk (replaceFirstById l id c') i n ≠ some c.name :=
          fun i hi => hvisit i (Nat.le_of_lt hi)
        have := iterWalk_transfer l _ c.name hne k n n hcyc havoid
        exact hacy n k hk this

theorem ucp_notFound (s : ConceptStore) (id : String) (p : Option String)
    (now : String) (h : s.concepts.find? (fun c => c.id = id) = none) :
    updateConceptParent s id p now = ⟨.error (.notFound id), s, false⟩ := by
  unfold updateConceptParent
  rw [h]

theorem ucp_detach (s : ConceptStore) (id now : String) (c : Concept)
    (h : s.concepts.find? (fun c => c.id = id) = some c) (p : Option String)
    (hp : p = none ∨ p = some "") :
    updateConceptParent s id p now =
      ⟨.ok { c with parent := none, lastSeen := now },
        ⟨s.version,
          replaceFirstById s.concepts id { c with parent := none, lastSeen := now },
          now⟩, true⟩ := by
  unfold updateConceptParent
  rw [h]
  rcases hp with hp | hp <;> subst hp <;> rfl

theorem ucp_parentMissing (s : ConceptStore) (id now : String) (c : Concept)
    (p : String) (h : s.concepts.find? (fun c => c.id = id) = some c)
    (hp : p ≠ "") (hm : s.concepts.find? (fun d => d.name = p) = none) :
    updateConceptParent s id (some p) now =
      ⟨.error (.parentNotFound p), s, false⟩ := by
  unfold updateConceptParent
  rw [h]
  simp [hp, hm]

theorem ucp_cycle (s : ConceptStore) (id now : String) (c d : Concept)
    (p : String) (h : s.concepts.find? (fun c => c.id = id) = some c)
    (hp : p ≠ "") (hm : s.concepts.find? (fun d => d.name = p) = some d)
    (hcyc : wouldCreateCycle s.concepts id p = true) :
    updateConceptParent s id (some p) now =
      ⟨.error .circularReference, s, false⟩ := by
  unfold updateConceptParent
  rw [h]
  simp only [if_neg hp, hm, Option.isNone_some, Bool.false_eq_true, if_false,
    hcyc, if_true]

theorem ucp_ok (s : ConceptStore) (id now : String) (c d : Concept)
    (p : String) (h : s.concepts.find? (fun c => c.id = id) = some c)
    (hp : p ≠ "") (hm : s.concepts.find? (fun d => d.name = p) = some d)
    (hcyc : wouldCreateCycle s.concepts id p = false) :
    updateConceptParent s id (some p) now =
      ⟨.ok { c with parent := some p, lastSeen := now },
        ⟨s.version,
          replaceFirstById s.concepts id { c with parent := some p, lastSeen := now },
          now⟩, true⟩ := by
  unfold updateConceptParent
  rw [h]
  simp only [if_neg hp, hm, Option.isNone_some, Bool.false_eq_true, if_false,
    hcyc, if_true]

/-- A name that some concept bears is found by the name lookup. -/
theorem find_name_isSome (l : List Concept) (c : Concept) (hc : c ∈ l) :
    (l.find? (fun d => d.name = c.name)).isSome = true := by
  rw [List.find?_isSome]
  exact ⟨c, hc, by simp⟩

theorem wouldCreateCycle_eq (l : List Concept) (id p : String) (c : Concept)
    (h : l.find? (fun c => c.id = id) = some c) :
    wouldCreateCycle l id p = cycleWalk l c.name p [] := by
  unfold wouldCreateCycle
  rw [h]

/-- C1: with a non-null `newParentName`, `updateConceptParent` rejects the
reparent as a cycle exactly when the walk of `wouldCreateCycle` — which
starts from the prospective parent name, follows `parent` name-references
upward through the current, unmodified concept list while tracking
visited names, and reports reaching the target concept's own name or
revisiting a name — says so (and the target id resolves); in particular
reparenting a concept to its own (non-empty) name is rejected; and any
cycle rejection happens before mutation: the store is returned untouched
and unsaved. -/
theorem claim_C1 (s : ConceptStore) (id p now : String) :
    ((updateConceptParent s id (some p) now).result =
        .error .circularReference ↔
      (s.concepts.find? (fun c => c.id = id)).isSome = true ∧
        wouldCreateCycle s.concepts id p = true) ∧
    (∀ c, s.concepts.find? (fun d => d.id = id) = some c → c.name ≠ "" →
      (updateConceptParent s id (some c.name) now).result =
        .error .circularReference) ∧
    ((updateConceptParent s id (some p) now).result =
        .error .circularReference →
      (updateConceptParent s id (some p) now).store = s ∧
        (updateConceptParent s id (some p) now).saved = false) := by
  have main : ∀ q : String,
      ((updateConceptParent s id (some q) now).result =
          .error .circularReference ↔
        (s.concepts.find? (fun c => c.id = id)).isSome = true ∧
          wouldCreateCycle s.concepts id q = true) ∧
      ((updateConceptParent s id (some q) now).result =
          .error .circularReference →
        (updateConceptParent s id (some q) now).store = s ∧
          (updateConceptParent s id (some q) now).saved = false) := by
    intro q
    cases hfind : s.concepts.find? (fun c => c.id = id) with
    | none =>
        rw [ucp_notFound s id (some q) now hfind]
        constructor
        · constructor
          · intro hcon; simp at hcon
          · rintro ⟨hsome, _⟩
            simp at hsome
        · intro hcon; simp at hcon
    | some c =>
        by_cases hq0 : q = ""
        · subst hq0
          rw [ucp_detach s id now c hfind (some "") (Or.inr rfl)]
          have hw : wouldCreateCycle s.concepts id "" = false := by
            rw [wouldCreateCycle_eq s.concepts id "" c hfind, cycleWalk_step_eq]
            simp
          rw [hw]
          constructor
          · constructor
            · intro hcon; simp at hcon
            · rintro ⟨_, hcon⟩; simp at hcon
          · intro hcon; simp at hcon
        · cases hfn : s.concepts.find? (fun d => d.name = q) with
          | none =>
              rw [ucp_parentMissing s id now c q hfind hq0 hfn]
              have hqc : ¬ (q = c.name) := by
                intro hcon
                have hmem : c ∈ s.concepts := List.mem_of_find?_eq_some hfind
                have hsome := find_name_isSome s.concepts c hmem
                rw [← hcon, hfn] at hsome
                simp at hsome
              have hw : wouldCreateCycle s.concepts id q = false := by
                rw [wouldCreateCycle_eq s.concepts id q c hfind, cycleWalk_step_eq]
                have hws : walkStep s.concepts q = none := by
                  unfold walkStep
                  rw [if_neg hq0, hfn]
                rw [hws]
                simp [hq0, hqc]
              rw [hw]
              constructor
              · constructor
                · intro hcon; simp at hcon
                · rintro ⟨_, hcon⟩; simp at hcon
              · intro hcon; simp at hcon
          | some d =>
              cases hcyc : wouldCreateCycle s.concepts id q with
              | true =>
                  rw [ucp_cycle s id now c d q hfind hq0 hfn hcyc]
                  constructor
                  · constructor
                    · intro _
                      exact ⟨rfl, rfl⟩
                    · intro _; rfl
                  · intro _; exact ⟨rfl, rfl⟩
              | false =>
                  rw [ucp_ok s id now c d q hfind hq0 hfn hcyc]
                  constructor
                  · constructor
                    · intro hcon; simp at hcon
                    · rintro ⟨_, hcon⟩; simp at hcon
                  · intro hcon; simp at hcon
  refine ⟨(main p).1, ?_, (main p).2⟩
  intro c hfind hname
  have hmem : c ∈ s.concepts := List.mem_of_find?_eq_some hfind
  obtain ⟨d, hd⟩ : ∃ d, s.concepts.find? (fun x => x.name = c.name) = some d :=
    Option.isSome_iff_exists.mp (find_name_isSome s.concepts c hmem)
  have hcyc : wouldCreateCycle s.concepts id c.name = true := by
    rw [wouldCreateCycle_eq s.concepts id c.name c hfind, cycleWalk_step_eq]
    simp [hname]
  rw [ucp_cycle s id now c d c.name hfind hname hd hcyc]

/-- Closed instantiation of `claim_C1`: a one-concept store, reparenting
the concept onto its own name, is rejected as a circular reference. -/
theorem claim_C1_witness :
    (updateConceptParent
        ⟨"1.0.0", [⟨"id-a", "A", "pattern", none, "x", [], [], "t0", "t0"⟩], "t0"⟩
        "id-a" (some "A") "t1").result = .error .circularReference := by
  refine (claim_C1
      ⟨"1.0.0", [⟨"id-a", "A", "pattern", none, "x", [], [], "t0", "t0"⟩], "t0"⟩
      "id-a" "A" "t1").2.1
    ⟨"id-a", "A", "pattern", none, "x", [], [], "t0", "t0"⟩ (by simp) (by simp)

/-- A concept list in which no concept has a parent reference has an
acyclic parent graph. -/
theorem acyclic_of_no_parents (l : List Concept)
    (h : ∀ c ∈ l, c.parent = none) : GraphAcyclic l := by
  intro n k hk hcon
  obtain ⟨j, rfl⟩ : ∃ j, k = j + 1 := ⟨k - 1, by omega⟩
  rw [iterWalk] at hcon
  have hws : walkStep l n = none := by
    unfold walkStep
    by_cases h0 : n = ""
    · simp [h0]
    · rw [if_neg h0]
      cases hf : l.find? (fun c => c.name = n) with
      | none => rfl
      | some c => exact h c (List.mem_of_find?_eq_some hf)
  rw [hws] at hcon
  cases hcon

/-- C2 falsified as stated: `addConcept` (the add-from-extraction path)
performs no cycle validation at all.  Adding, to the empty store, an
extracted concept whose `parent` is its own name succeeds, saves, and
leaves the parent graph with a self-loop — the operation that introduced
a cycle was not rejected. -/
theorem claim_C2_counterexample :
    (addConcept ⟨"1.0.0", [], "t0"⟩ ⟨"A", "pattern", some "A", "x"⟩ none
        "id-a" "t1").result =
      .ok ⟨"id-a", "A", "pattern", some "A", "x", [], [], "t1", "t1"⟩ ∧
    (addConcept ⟨"1.0.0", [], "t0"⟩ ⟨"A", "pattern", some "A", "x"⟩ none
        "id-a" "t1").saved = true ∧
    ¬ GraphAcyclic (addConcept ⟨"1.0.0", [], "t0"⟩ ⟨"A", "pattern", some "A", "x"⟩
        none "id-a" "t1").store.concepts := by
  refine ⟨rfl, rfl, ?_⟩
  intro h
  exact h "A" 1 Nat.one_pos rfl

/-- C2 (amended): acyclicity is an invariant of the reparent operation
only — for every store whose parent graph is acyclic, the store left
behind by `updateConceptParent` (successful or rejected) is still
acyclic; `addConcept`/addFromExtraction does not validate parent
references and can introduce cycles (see the counterexample). -/
theorem claim_C2_amended (s : ConceptStore) (id : String) (p : Option String)
    (now : String) (hacy : GraphAcyclic s.concepts) :
    GraphAcyclic (updateConceptParent s id p now).store.concepts := by
  cases hfind : s.concepts.find? (fun c => c.id = id) with
  | none => rw [ucp_notFound s id p now hfind]; exact hacy
  | some c =>
      cases p with
      | none =>
          rw [ucp_detach s id now c hfind none (Or.inl rfl)]
          exact acyclic_replace s.concepts id c _ hfind rfl (Or.inl rfl) hacy
      | some q =>
          by_cases hq0 : q = ""
          · subst hq0
            rw [ucp_detach s id now c hfind (some "") (Or.inr rfl)]
            exact acyclic_replace s.concepts id c _ hfind rfl (Or.inl rfl) hacy
          · cases hfn : s.concepts.find? (fun d => d.name = q) with
            | none => rw [ucp_parentMissing s id now c q hfind hq0 hfn]; exact hacy
            | some d =>
                cases hcyc : wouldCreateCycle s.concepts id q with
                | true => rw [ucp_cycle s id now c d q hfind hq0 hfn hcyc]; exact hacy
                | false =>
                    rw [ucp_ok s id now c d q hfind hq0 hfn hcyc]
                    refine acyclic_replace s.concepts id c _ hfind rfl ?_ hacy
                    right
                    refine ⟨q, rfl, ?_⟩
                    rw [wouldCreateCycle_eq s.concepts id q c hfind] at hcyc
                    exact hcyc

/-- Closed instantiation of `claim_C2_amended` on a concrete acyclic
store and a concrete detach call. -/
theorem claim_C2_witness :
    GraphAcyclic ((updateConceptParent
        ⟨"1.0.0", [⟨"id-a", "A", "pattern", none, "x", [], [], "t0", "t0"⟩], "t0"⟩
        "id-a" none "t1").store.concepts) :=
  claim_C2_amended
    ⟨"1.0.0", [⟨"id-a", "A", "pattern", none, "x", [], [], "t0", "t0"⟩], "t0"⟩
    "id-a" none "t1"
    (acyclic_of_no_parents _ (by intro c hc; simp at hc; rw [hc]))

/-- C3: each of the three rejected reparent shapes — target of the
reparent set to the concept's own name, target set to the name of a
concept that transitively has the reparented concept as an ancestor
(a positive number of `walkStep`s from the prospective parent's name
reaches the concept's name), and target set to a name borne by no
concept — throws, and the returned state is the untouched input store
with no save performed. -/
theorem claim_C3 (s : ConceptStore) (id now : String) :
    (∀ c, s.concepts.find? (fun d => d.id = id) = some c → c.name ≠ "" →
      updateConceptParent s id (some c.name) now =
        ⟨.error .circularReference, s, false⟩) ∧
    (∀ c b k, s.concepts.find? (fun d => d.id = id) = some c →
      b ∈ s.concepts → c.name ≠ "" → 0 < k →
      iterWalk s.concepts k b.name = some c.name →
      updateConceptParent s id (some b.name) now =
        ⟨.error .circularReference, s, false⟩) ∧
    (∀ c p, s.concepts.find? (fun d => d.id = id) = some c → p ≠ "" →
      (∀ d ∈ s.concepts, d.name ≠ p) →
      updateConceptParent s id (some p) now =
        ⟨.error (.parentNotFound p), s, false⟩) := by
  refine ⟨?_, ?_, ?_⟩
  · intro c hfind hname
    obtain ⟨d, hd⟩ : ∃ d, s.concepts.find? (fun x => x.name = c.name) = some d :=
      Option.isSome_iff_exists.mp
        (find_name_isSome s.concepts c (List.mem_of_find?_eq_some hfind))
    have hcyc : wouldCreateCycle s.concepts id c.name = true := by
      rw [wouldCreateCycle_eq s.concepts id c.name c hfind, cycleWalk_step_eq]
      simp [hname]
    exact ucp_cycle s id now c d c.name hfind hname hd hcyc
  · intro c b k hfind hb hname hk hreach
    obtain ⟨d, hd⟩ : ∃ d, s.concepts.find? (fun x => x.name = b.name) = some d :=
      Option.isSome_iff_exists.mp (find_name_isSome s.concepts b hb)
    have hbname : b.name ≠ "" := by
      intro hcon
      obtain ⟨j, rfl⟩ : ∃ j, k = j + 1 := ⟨k - 1, by omega⟩
      rw [iterWalk] at hreach
      have hws : walkStep s.concepts b.name = none := by
        unfold walkStep
        simp [hcon]
      rw [hws] at hreach
      cases hreach
    have hcyc : wouldCreateCycle s.concepts id b.name = true := by
      rw [wouldCreateCycle_eq s.concepts id b.name c hfind]
      exact iterWalk_reach_cycleWalk s.concepts c.name hname k b.name [] hreach
    exact ucp_cycle s id now c d b.name hfind hbname hd hcyc
  · intro c p hfind hp hnone
    have hfn : s.concepts.find? (fun d => d.name = p) = none := by
      rw [List.find?_eq_none]
      intro d hd
      simpa using hnone d hd
    exact ucp_parentMissing s id now c p hfind hp hfn

/-- Closed instantiation of `claim_C3` (the transitive-ancestor case):
with `A` a root and `B` a child of `A`, reparenting `A` under `B` is
rejected as a circular reference and the store is returned unchanged,
unsaved. -/
theorem claim_C3_witness :
    updateConceptParent
        ⟨"1.0.0",
          [⟨"id-a", "A", "pattern", none, "x", [], [], "t0", "t0"⟩,
            ⟨"id-b", "B", "pattern", some "A", "y", [], [], "t0", "t0"⟩], "t0"⟩
        "id-a" (some "B") "t1" =
      ⟨.error .circularReference,
        ⟨"1.0.0",
          [⟨"id-a", "A", "pattern", none, "x", [], [], "t0", "t0"⟩,
            ⟨"id-b", "B", "pattern", some "A", "y", [], [], "t0", "t0"⟩], "t0"⟩,
        false⟩ :=
  (claim_C3
      ⟨"1.0.0",
        [⟨"id-a", "A", "pattern", none, "x", [], [], "t0", "t0"⟩,
          ⟨"id-b", "B", "pattern", some "A", "y", [], [], "t0", "t0"⟩], "t0"⟩
      "id-a" "t1").2.1
    ⟨"id-a", "A", "pattern", none, "x", [], [], "t0", "t0"⟩
    ⟨"id-b", "B", "pattern", some "A", "y", [], [], "t0", "t0"⟩
    1 (by simp) (by simp) (by simp) Nat.one_pos rfl

/-- With process-wide unique ids (the data model's guarantee for `id`),
the id lookup of a member finds exactly that member. -/
theorem find_id_of_mem_nodup (l : List Concept) (c : Concept) (hc : c ∈ l)
    (hnd : (l.map (fun d => d.id)).Nodup) :
    l.find? (fun d => d.id = c.id) = some c := by
  induction l with
  | nil => cases hc
  | cons h t ih =>
      rw [List.map_cons, List.nodup_cons] at hnd
      rcases List.mem_cons.mp hc with rfl | hct
      · rw [List.find?_cons_of_pos _ (by simp)]
      · by_cases hid : h.id = c.id
        · exact absurd (hid ▸ List.mem_map_of_mem (fun d => d.id) hct) hnd.1
        · rw [List.find?_cons_of_neg _ (by simpa using hid)]
          exact ih hct hnd.2

/-- C4: `addConcept` merges on a case-insensitive name hit — concept
count unchanged, the existing concept's snippet list grows by one exactly
when a truthy provenance text is supplied (by zero otherwise), `lastSeen`
bumped — and otherwise creates a concept carrying the supplied fresh id,
`firstSeen = lastSeen = now`, and the supplied category, explanation and
parent, appended to the store. -/
theorem claim_C4 (s : ConceptStore) (e : ExtractedConcept)
    (snip : Option String) (freshId now : String) :
    (∀ existing, getConceptByName s e.name = some existing →
      (s.concepts.map (fun c => c.id)).Nodup →
      (addConcept s e snip freshId now).store.concepts.length =
          s.concepts.length ∧
        ∃ c', (addConcept s e snip freshId now).result = .ok c' ∧
          c'.id = existing.id ∧
          c'.chatSnippets.length =
            existing.chatSnippets.length + (if optTruthy snip then 1 else 0) ∧
          c'.lastSeen = now) ∧
    (getConceptByName s e.name = none →
      ∃ c', (addConcept s e snip freshId now).result = .ok c' ∧
        (addConcept s e snip freshId now).store.concepts = s.concepts ++ [c'] ∧
        c'.id = freshId ∧ c'.firstSeen = now ∧ c'.lastSeen = now ∧
        c'.category = e.category ∧ c'.explanation = e.explanation ∧
        c'.parent = e.parent ∧
        (freshId ∉ s.concepts.map (fun c => c.id) →
          ∀ d ∈ s.concepts, c'.id ≠ d.id)) := by
  constructor
  · intro existing hname hnd
    have hmem : existing ∈ s.concepts := List.mem_of_find?_eq_some hname
    have hfind : s.concepts.find? (fun d => d.id = existing.id) = some existing :=
      find_id_of_mem_nodup s.concepts existing hmem hnd
    have hstep : addConcept s e snip freshId now =
        updateConcept s existing.id { chatSnippet := snip } now := by
      unfold addConcept
      rw [hname]
    have hstep2 : updateConcept s existing.id { chatSnippet := snip } now =
        ⟨.ok (applyUpdates existing { chatSnippet := snip } now),
          ⟨s.version,
            replaceFirstById s.concepts existing.id
              (applyUpdates existing { chatSnippet := snip } now), now⟩,
          true⟩ := by
      unfold updateConcept
      rw [hfind]
    rw [hstep, hstep2]
    refine ⟨by simp [replaceFirstById_length], ?_⟩
    refine ⟨applyUpdates existing { chatSnippet := snip } now, rfl, ?_, ?_, ?_⟩
    · cases snip with
      | none => rfl
      | some str =>
          by_cases h0 : str = "" <;>
            simp [applyUpdates, h0]
    · cases snip with
      | none => simp [applyUpdates, optTruthy]
      | some str =>
          by_cases h0 : str = "" <;>
            simp [applyUpdates, optTruthy, h0]
    · cases snip with
      | none => rfl
      | some str =>
          by_cases h0 : str = "" <;>
            simp [applyUpdates, h0]
  · intro hnone
    unfold addConcept
    rw [hnone]
    refine ⟨_, rfl, rfl, rfl, rfl, rfl, rfl, rfl, rfl, ?_⟩
    intro hfresh d hd hcon
    have h2 : freshId = d.id := hcon
    rw [h2] at hfresh
    exact hfresh (List.mem_map_of_mem (fun c => c.id) hd)

/-- Closed instantiation of `claim_C4` (merge branch): re-adding "a"
against a store already holding "A" keeps the concept count at one. -/
theorem claim_C4_witness :
    (addConcept
        ⟨"1.0.0", [⟨"id-a", "A", "pattern", none, "x", [], [], "t0", "t0"⟩], "t0"⟩
        ⟨"a", "library", none, "y"⟩ (some "hello") "id-new"
        "t1").store.concepts.length = 1 :=
  ((claim_C4
      ⟨"1.0.0", [⟨"id-a", "A", "pattern", none, "x", [], [], "t0", "t0"⟩], "t0"⟩
      ⟨"a", "library", none, "y"⟩ (some "hello") "id-new" "t1").1
    ⟨"id-a", "A", "pattern", none, "x", [], [], "t0", "t0"⟩
    (by decide) (by decide)).1

/-- C5 falsified as stated: creation via add-from-extraction assigns a
non-null `parent` that names no existing concept.  On the empty store,
adding an extracted concept with `parent = "P"` succeeds and stores
`parent = some "P"` although no concept named "P" exists at assignment
time. -/
theorem claim_C5_counterexample :
    (addConcept ⟨"1.0.0", [], "t0"⟩ ⟨"A", "pattern", some "P", "x"⟩ none
        "id-a" "t1").result =
      .ok ⟨"id-a", "A", "pattern", some "P", "x", [], [], "t1", "t1"⟩ ∧
    (∀ c, c ∈ (⟨"1.0.0", [], "t0"⟩ : ConceptStore).concepts → c.name ≠ "P") :=
  ⟨rfl, by simp⟩

/-- C5 (amended): only the reparent path enforces referential validity —
whenever `updateConceptParent` succeeds and the returned concept carries
a non-null parent name, a concept with exactly that name existed in the
pre-operation store; creation via `addConcept` performs no such check
(see the counterexample). -/
theorem claim_C5_amended (s : ConceptStore) (id : String) (pArg : Option String)
    (now : String) (c' : Concept) (p : String)
    (hok : (updateConceptParent s id pArg now).result = .ok c')
    (hp : c'.parent = some p) :
    ∃ d ∈ s.concepts, d.name = p := by
  cases hfind : s.concepts.find? (fun c => c.id = id) with
  | none =>
      rw [ucp_notFound s id pArg now hfind] at hok
      cases hok
  | some c =>
      cases pArg with
      | none =>
          rw [ucp_detach s id now c hfind none (Or.inl rfl)] at hok
          have := Except.ok.inj hok
          rw [← this] at hp
          cases hp
      | some q =>
          by_cases hq0 : q = ""
          · subst hq0
            rw [ucp_detach s id now c hfind (some "") (Or.inr rfl)] at hok
            have := Except.ok.inj hok
            rw [← this] at hp
            cases hp
          · cases hfn : s.concepts.find? (fun d => d.name = q) with
            | none =>
                rw [ucp_parentMissing s id now c q hfind hq0 hfn] at hok
                cases hok
            | some d =>
                cases hcyc : wouldCreateCycle s.concepts id q with
                | true =>
                    rw [ucp_cycle s id now c d q hfind hq0 hfn hcyc] at hok
                    cases hok
                | false =>
                    rw [ucp_ok s id now c d q hfind hq0 hfn hcyc] at hok
                    have hc' := Except.ok.inj hok
                    have hqp : q = p := by
                      rw [← hc'] at hp
                      exact Option.some.inj hp
                    refine ⟨d, List.mem_of_find?_eq_some hfn, ?_⟩
                    have := List.find?_some hfn
                    rw [← hqp]
                    simpa using this

/-- Closed instantiation of `claim_C5_amended`: after successfully
reparenting `A` under `B`, a concept named "B" indeed existed. -/
theorem claim_C5_witness :
    ∃ d ∈ ([⟨"id-a", "A", "pattern", none, "x", [], [], "t0", "t0"⟩,
        ⟨"id-b", "B", "pattern", none, "y", [], [], "t0", "t0"⟩] :
          List Concept), d.name = "B" := by
  have hfind : ([⟨"id-a", "A", "pattern", none, "x", [], [], "t0", "t0"⟩,
      ⟨"id-b", "B", "pattern", none, "y", [], [], "t0", "t0"⟩] :
        List Concept).find? (fun c => c.id = "id-a") =
      some ⟨"id-a", "A", "pattern", none, "x", [], [], "t0", "t0"⟩ := by decide
  have hfn : ([⟨"id-a", "A", "pattern", none, "x", [], [], "t0", "t0"⟩,
      ⟨"id-b", "B", "pattern", none, "y", [], [], "t0", "t0"⟩] :
        List Concept).find? (fun d => d.name = "B") =
      some ⟨"id-b", "B", "pattern", none, "y", [], [], "t0", "t0"⟩ := by decide
  have hcyc : wouldCreateCycle
      [⟨"id-a", "A", "pattern", none, "x", [], [], "t0", "t0"⟩,
        ⟨"id-b", "B", "pattern", none, "y", [], [], "t0", "t0"⟩]
      "id-a" "B" = false := by
    rw [wouldCreateCycle_eq _ "id-a" "B"
        ⟨"id-a", "A", "pattern", none, "x", [], [], "t0", "t0"⟩ hfind,
      cycleWalk_step_eq]
    have hws : walkStep
        [⟨"id-a", "A", "pattern", none, "x", [], [], "t0", "t0"⟩,
          ⟨"id-b", "B", "pattern", none, "y", [], [], "t0", "t0"⟩] "B" = none := by
      unfold walkStep
      simp
    rw [hws]
    simp
  refine claim_C5_amended
    ⟨"1.0.0",
      [⟨"id-a", "A", "pattern", none, "x", [], [], "t0", "t0"⟩,
        ⟨"id-b", "B", "pattern", none, "y", [], [], "t0", "t0"⟩], "t0"⟩
    "id-a" (some "B") "t1"
    ⟨"id-a", "A", "pattern", some "B", "x", [], [], "t0", "t1"⟩ "B" ?_ rfl
  rw [ucp_ok _ "id-a" "t1"
      ⟨"id-a", "A", "pattern", none, "x", [], [], "t0", "t0"⟩
      ⟨"id-b", "B", "pattern", none, "y", [], [], "t0", "t0"⟩
      "B" hfind (by simp) hfn hcyc]

/-- C6 falsified as stated: a uniquely-named concept whose `parent` is
its own name does not resolve to *another* concept, so by the claim it
should be a root; but `buildTree` attaches its node beneath itself
(`nodeMap.has` sees the concept's own entry), so the roots list is empty
and the concept appears in no root's tree. -/
theorem claim_C6_counterexample :
    truthyParent ⟨"id-a", "A", "pattern", some "A", "x", [], [], "t0", "t0"⟩ = some "A" ∧
    (∀ d, d ∈ [(⟨"id-a", "A", "pattern", some "A", "x", [], [], "t0", "t0"⟩ : Concept)] →
      d ≠ ⟨"id-a", "A", "pattern", some "A", "x", [], [], "t0", "t0"⟩ → d.name ≠ "A") ∧
    buildTreeRootConcepts [⟨"id-a", "A", "pattern", some "A", "x", [], [], "t0", "t0"⟩] = [] ∧
    (⟨"id-a", "A", "pattern", some "A", "x", [], [], "t0", "t0"⟩ : Concept) ∈
      buildTreeChildConcepts [⟨"id-a", "A", "pattern", some "A", "x", [], [], "t0", "t0"⟩] "A" := by
  decide

/-- C6 (amended): for uniquely-named inputs the construction is a
partition — every concept gets exactly one node, which lands in the roots
list iff its parent is null/empty or is not the name of *any* concept in
the snapshot (a self-named parent therefore attaches the node under
itself, outside every root's tree); a non-root is attached under exactly
the one name its parent references.  The builder is pure: the input
records are read, never rewritten. -/
theorem claim_C6_amended (l : List Concept)
    (hnd : (l.map (fun c => c.name)).Nodup) (c : Concept) (hc : c ∈ l) :
    (c ∈ buildTreeRootConcepts l ↔
      truthyParent c = none ∨ ∀ d ∈ l, truthyParent c ≠ some d.name) ∧
    (c ∈ buildTreeRootConcepts l → ∀ n, c ∉ buildTreeChildConcepts l n) ∧
    (c ∉ buildTreeRootConcepts l →
      ∃ p, truthyParent c = some p ∧ c ∈ buildTreeChildConcepts l p ∧
        ∀ n, c ∈ buildTreeChildConcepts l n → n = p) := by
  have hroot : c ∈ buildTreeRootConcepts l ↔ attachesToParent l c = false := by
    rw [buildTreeRootConcepts, List.mem_filter]
    simp [hc]
  have hchild : ∀ n, c ∈ buildTreeChildConcepts l n ↔
      (attachesToParent l c = true ∧ truthyParent c = some n) := by
    intro n
    rw [buildTreeChildConcepts, List.mem_filter]
    simp [hc]
  have hattach : attachesToParent l c = false ↔
      (truthyParent c = none ∨ ∀ d ∈ l, truthyParent c ≠ some d.name) := by
    unfold attachesToParent
    cases htp : truthyParent c with
    | none => simp
    | some p =>
        simp only [nodeMapHas]
        constructor
        · intro hfalse
          right
          intro d hd hcon
          have hdp : d.name = p := (Option.some.inj hcon).symm
          have : l.any (fun c => c.name = p) = true :=
            List.any_eq_true.mpr ⟨d, hd, by simpa using hdp⟩
          rw [hfalse] at this
          cases this
        · intro h
          rcases h with h | h
          · cases h
          · rw [← Bool.not_eq_true]
            intro hcon
            obtain ⟨d, hd, hdp⟩ := List.any_eq_true.mp hcon
            have hdp' : d.name = p := by simpa using hdp
            exact h d hd (by rw [hdp'])
  refine ⟨hroot.trans hattach, ?_, ?_⟩
  · intro hr n hcon
    rw [hroot] at hr
    rw [hchild n] at hcon
    rw [hr] at hcon
    cases hcon.1
  · intro hnr
    have hat : attachesToParent l c = true := by
      by_contra hcon
      rw [Bool.not_eq_true] at hcon
      exact hnr (hroot.mpr hcon)
    cases htp : truthyParent c with
    | none =>
        unfold attachesToParent at hat
        rw [htp] at hat
        cases hat
    | some p =>
        refine ⟨p, rfl, ?_, ?_⟩
        · rw [hchild p]
          exact ⟨hat, htp⟩
        · intro n hn
          rw [hchild n, htp] at hn
          exact (Option.some.inj hn.2).symm

/-- Closed instantiation of `claim_C6_amended`: with `A` a root and `B`
a child of `A`, `B` is attached in the children list of "A". -/
theorem claim_C6_witness :
    (⟨"id-b", "B", "pattern", some "A", "y", [], [], "t0", "t0"⟩ : Concept) ∈
      buildTreeChildConcepts
        [⟨"id-a", "A", "pattern", none, "x", [], [], "t0", "t0"⟩,
          ⟨"id-b", "B", "pattern", some "A", "y", [], [], "t0", "t0"⟩] "A" := by
  obtain ⟨p, hp, hmem, _⟩ :=
    (claim_C6_amended
        [⟨"id-a", "A", "pattern", none, "x", [], [], "t0", "t0"⟩,
          ⟨"id-b", "B", "pattern", some "A", "y", [], [], "t0", "t0"⟩]
        (by decide)
        ⟨"id-b", "B", "pattern", some "A", "y", [], [], "t0", "t0"⟩
        (by decide)).2.2 (by decide)
  have hpa : (some "A" : Option String) = some p := by
    rw [← hp]
    decide
  rw [(Option.some.inj hpa).symm] at hmem
  exact hmem

theorem getField_cons_hit (k : String) (v : Json) (rest : List (String × Json)) :
    (Json.obj ((k, v) :: rest)).getField k = some v := by
  simp only [Json.getField]
  rw [List.find?_cons_of_pos _ (by simp)]
  rfl

theorem getField_cons_miss (k k' : String) (h : ¬ (k' = k)) (v : Json)
    (rest : List (String × Json)) :
    (Json.obj ((k', v) :: rest)).getField k = (Json.obj rest).getField k := by
  simp only [Json.getField]
  rw [List.find?_cons_of_neg _ (by simpa using h)]

theorem getField_nil (k : String) : (Json.obj []).getField k = none := by
  simp [Json.getField]

theorem decodeSnippet_roundtrip (s : ChatSnippet) :
    decodeSnippet (snippetToJson s) = some s := by
  unfold decodeSnippet snippetToJson
  rw [getField_cons_hit, getField_cons_miss _ _ (by decide), getField_cons_hit]

/-- C7: the data-format export is lossless modulo the envelope.  The
envelope carries the export timestamp, the count, and one record per
concept; reading each emitted record back yields exactly the original
values of every included field — `parent` is present iff it was non-null,
and the snippet and location arrays are included exactly unless the
corresponding option is `false`, decoding back to the original lists. -/
theorem claim_C7 (concepts : List Concept) (incS incL : Option Bool)
    (t : String) :
    (exportAsJson concepts incS incL t).getField "exportedAt" =
        some (.str t) ∧
    (exportAsJson concepts incS incL t).getField "count" =
        some (.num concepts.length) ∧
    (exportAsJson concepts incS incL t).getField "concepts" =
        some (.arr (concepts.map
          (fun c => conceptToJsonRecord c incS incL))) ∧
    ∀ c : Concept,
      (conceptToJsonRecord c incS incL).getField "id" = some (.str c.id) ∧
      (conceptToJsonRecord c incS incL).getField "name" = some (.str c.name) ∧
      (conceptToJsonRecord c incS incL).getField "category" =
          some (.str c.category) ∧
      (conceptToJsonRecord c incS incL).getField "parent" =
          c.parent.map Json.str ∧
      (conceptToJsonRecord c incS incL).getField "explanation" =
          some (.str c.explanation) ∧
      (conceptToJsonRecord c incS incL).getField "firstSeen" =
          some (.str c.firstSeen) ∧
      (conceptToJsonRecord c incS incL).getField "lastSeen" =
          some (.str c.lastSeen) ∧
      (incS ≠ some false →
        (conceptToJsonRecord c incS incL).getField "chatSnippets" =
            some (.arr (c.chatSnippets.map snippetToJson)) ∧
          (c.chatSnippets.map snippetToJson).map decodeSnippet =
            c.chatSnippets.map some) ∧
      (incL ≠ some false →
        (conceptToJsonRecord c incS incL).getField "codeLocations" =
          some (.arr (c.codeLocations.map Json.str))) := by
  refine ⟨getField_cons_hit _ _ _, ?_, ?_, ?_⟩
  · rw [exportAsJson, getField_cons_miss _ _ (by decide), getField_cons_hit]
  · rw [exportAsJson, getField_cons_miss _ _ (by decide),
      getField_cons_miss _ _ (by decide), getField_cons_hit]
  · intro c
    have hsnips : (c.chatSnippets.map snippetToJson).map decodeSnippet =
        c.chatSnippets.map some := by
      rw [List.map_map]
      exact List.map_congr_left (fun s _ => decodeSnippet_roundtrip s)
    unfold conceptToJsonRecord
    cases hp : c.parent with
    | none =>
        by_cases hS : incS = some false <;> by_cases hL : incL = some false <;>
          simp [hS, hL, hsnips, getField_cons_hit, getField_cons_miss, getField_nil]
    | some p =>
        by_cases hS : incS = some false <;> by_cases hL : incL = some false <;>
          simp [hS, hL, hsnips, getField_cons_hit, getField_cons_miss, getField_nil]

/-- Closed instantiation of `claim_C7`: a record exported with default
options carries its snippet array. -/
theorem claim_C7_witness :
    (conceptToJsonRecord
        ⟨"i", "N", "library", some "P", "e",
          [⟨"ts", "txt"⟩], ["f:1"], "t0", "t1"⟩ none none).getField
        "chatSnippets" =
      some (Json.arr [snippetToJson ⟨"ts", "txt"⟩]) :=
  (((claim_C7
        [⟨"i", "N", "library", some "P", "e", [⟨"ts", "txt"⟩], ["f:1"], "t0", "t1"⟩]
        none none "T").2.2.2
      ⟨"i", "N", "library", some "P", "e",
        [⟨"ts", "txt"⟩], ["f:1"], "t0", "t1"⟩).2.2.2.2.2.2.2.1 (by simp)).1

theorem find_key_map_overwrite (k k' : String) (v : List CodeLocation)
    (h : ¬ k' = k) :
    ∀ m : List (String × List CodeLocation),
      (m.map (fun kv => if kv.1 = k then (k, v) else kv)).find?
          (fun kv => kv.1 = k') =
        m.find? (fun kv => kv.1 = k') := by
  intro m
  induction m with
  | nil => rfl
  | cons hd tl ih =>
      rw [List.map_cons]
      by_cases hh : hd.1 = k
      · rw [if_pos hh]
        rw [List.find?_cons_of_neg _
            (by simp only [decide_eq_true_eq]; exact fun hc => h hc.symm),
          List.find?_cons_of_neg _
            (by simp only [decide_eq_true_eq]
                exact fun hc => h (hc.symm.trans hh))]
        exact ih
      · rw [if_neg hh]
        by_cases hk : hd.1 = k'
        · rw [List.find?_cons_of_pos _ (by simpa using hk),
            List.find?_cons_of_pos _ (by simpa using hk)]
        · rw [List.find?_cons_of_neg _ (by simpa using hk),
            List.find?_cons_of_neg _ (by simpa using hk)]
          exact ih

theorem find_key_append_single (k k' : String) (v : List CodeLocation)
    (h : ¬ k' = k) :
    ∀ m : List (String × List CodeLocation),
      (m ++ [(k, v)]).find? (fun kv => kv.1 = k') =
        m.find? (fun kv => kv.1 = k') := by
  intro m
  induction m with
  | nil =>
      rw [List.nil_append,
        List.find?_cons_of_neg _
          (by simp only [decide_eq_true_eq]; exact fun hc => h hc.symm)]
  | cons hd tl ih =>
      rw [List.cons_append]
      by_cases hk : hd.1 = k'
      · rw [List.find?_cons_of_pos _ (by simpa using hk),
          List.find?_cons_of_pos _ (by simpa using hk)]
      · rw [List.find?_cons_of_neg _ (by simpa using hk),
          List.find?_cons_of_neg _ (by simpa using hk)]
        exact ih

theorem mapLookup_mapSet_ne (m : List (String × List CodeLocation))
    (k k' : String) (v : List CodeLocation) (h : ¬ k' = k) :
    mapLookup (mapSet m k v) k' = mapLookup m k' := by
  unfold mapSet mapLookup
  by_cases hany : m.any (fun kv => kv.1 = k)
  · rw [if_pos hany, find_key_map_overwrite k k' v h m]
  · rw [if_neg hany, find_key_append_single k k' v h m]

theorem find_key_map_overwrite_self (k : String) (v : List CodeLocation) :
    ∀ m : List (String × List CodeLocation),
      m.any (fun kv => kv.1 = k) = true →
      (m.map (fun kv => if kv.1 = k then (k, v) else kv)).find?
          (fun kv => kv.1 = k) = some (k, v) := by
  intro m
  induction m with
  | nil => intro hcon; simp at hcon
  | cons hd tl ih =>
      intro hany
      rw [List.map_cons]
      by_cases hh : hd.1 = k
      · rw [if_pos hh, List.find?_cons_of_pos _ (by simp)]
      · rw [if_neg hh, List.find?_cons_of_neg _ (by simpa using hh)]
        apply ih
        rw [List.any_cons] at hany
        rcases Bool.or_eq_true_iff.mp hany with hl | hr
        · exact absurd (by simpa using hl) hh
        · exact hr

theorem find_key_append_single_self (k : String) (v : List CodeLocation) :
    ∀ m : List (String × List CodeLocation),
      m.any (fun kv => kv.1 = k) = false →
      (m ++ [(k, v)]).find? (fun kv => kv.1 = k) = some (k, v) := by
  intro m
  induction m with
  | nil =>
      intro _
      rw [List.nil_append, List.find?_cons_of_pos _ (by simp)]
  | cons hd tl ih =>
      intro hany
      rw [List.any_cons, Bool.or_eq_false_iff] at hany
      rw [List.cons_append,
        List.find?_cons_of_neg _ (by simp only [hany.1]; exact Bool.false_ne_true)]
      exact ih hany.2

theorem mapLookup_mapSet_self (m : List (String × List CodeLocation))
    (k : String) (v : List CodeLocation) :
    mapLookup (mapSet m k v) k = some v := by
  unfold mapSet mapLookup
  cases hany : m.any (fun kv => kv.1 = k) with
  | true =>
      rw [if_pos rfl, find_key_map_overwrite_self k v m hany]
      rfl
  | false =>
      rw [if_neg Bool.false_ne_true, find_key_append_single_self k v m hany]
      rfl

/-- A location is reported for a concept exactly when some candidate
file has a whole-word matching line, and it records that file's relative
path, the 1-based line number and the trimmed, truncated line. -/
theorem mem_scanForConcept (c : Concept) (files : List ScanFile)
    (loc : CodeLocation) :
    loc ∈ scanForConcept c files ↔
      ∃ f ∈ files, ∃ i line, f.lines[i]? = some line ∧
        lineMatches c.name line = true ∧
        loc = ⟨f.relPath, i + 1, trimTruncate line⟩ := by
  unfold scanForConcept scanFileForConcept
  rw [List.mem_flatten]
  constructor
  · rintro ⟨lss, hlss, hloc⟩
    rw [List.mem_map] at hlss
    obtain ⟨f, hf, rfl⟩ := hlss
    rw [List.mem_map] at hloc
    obtain ⟨p, hp, rfl⟩ := hloc
    rw [List.mem_filter] at hp
    obtain ⟨hpe, hm⟩ := hp
    exact ⟨f, hf, p.1, p.2, List.mem_enum_iff_getElem?.mp hpe,
      by simpa using hm, rfl⟩
  · rintro ⟨f, hf, i, line, hget, hm, rfl⟩
    refine ⟨(f.lines.enum.filter (fun p => lineMatches c.name p.2)).map
        (fun p => ⟨f.relPath, p.1 + 1, trimTruncate p.2⟩), ?_, ?_⟩
    · exact List.mem_map_of_mem _ hf
    · rw [List.mem_map]
      refine ⟨(i, line), ?_, rfl⟩
      rw [List.mem_filter]
      exact ⟨List.mk_mem_enum_iff_getElem?.mpr hget, by simpa using hm⟩

/-- Folding the remaining concepts never disturbs a key none of them
bears. -/
theorem scanAll_fold_frozen (files : List ScanFile) :
    ∀ (rest : List Concept) (acc : List (String × List CodeLocation))
      (k : String), k ∉ rest.map (fun d => d.id) →
      mapLookup (rest.foldl (fun acc c =>
          if (scanForConcept c files).length > 0 then
            mapSet acc c.id (scanForConcept c files)
          else acc) acc) k =
        mapLookup acc k := by
  intro rest
  induction rest with
  | nil => intro acc k _; rfl
  | cons d rest ih =>
      intro acc k hk
      rw [List.map_cons, List.mem_cons] at hk
      push_neg at hk
      rw [List.foldl_cons]
      rw [ih _ k hk.2]
      by_cases hl : (scanForConcept d files).length > 0
      · rw [if_pos hl]
        exact mapLookup_mapSet_ne acc d.id k _ hk.1
      · rw [if_neg hl]

/-- The lookup delivered by the scan fold, for a concept with a unique
id among those scanned. -/
theorem scanAll_fold_lookup (files : List ScanFile) :
    ∀ (rest : List Concept) (acc : List (String × List CodeLocation))
      (c : Concept), c ∈ rest → (rest.map (fun d => d.id)).Nodup →
      mapLookup (rest.foldl (fun acc c =>
          if (scanForConcept c files).length > 0 then
            mapSet acc c.id (scanForConcept c files)
          else acc) acc) c.id =
        (if (scanForConcept c files).length > 0 then
          some (scanForConcept c files)
        else mapLookup acc c.id) := by
  intro rest
  induction rest with
  | nil => intro acc c hc; cases hc
  | cons d rest ih =>
      intro acc c hc hnd
      rw [List.map_cons, List.nodup_cons] at hnd
      rw [List.foldl_cons]
      rcases List.mem_cons.mp hc with rfl | hcr
      · rw [scanAll_fold_frozen files rest _ c.id hnd.1]
        by_cases hl : (scanForConcept c files).length > 0
        · rw [if_pos hl, if_pos hl, mapLookup_mapSet_self]
        · rw [if_neg hl, if_neg hl]
      · have hne : ¬ (c.id = d.id) := by
          intro hcon
          apply hnd.1
          rw [← hcon]
          exact List.mem_map_of_mem _ hcr
        rw [ih _ c hcr hnd.2]
        by_cases hcl : (scanForConcept c files).length > 0
        · rw [if_pos hcl, if_pos hcl]
        · rw [if_neg hcl, if_neg hcl]
          by_cases hl : (scanForConcept d files).length > 0
          · rw [if_pos hl, mapLookup_mapSet_ne _ _ _ _ hne]
          · rw [if_neg hl]

/-- C8: for concepts with pairwise distinct ids, the scan result map
holds a concept's id iff some candidate-file line whole-word-matches its
name (case-insensitively); the stored list is exactly the concept's scan
list; and a location is in that list iff it is the relative path,
1-based line number and trimmed, 100-character-truncated text of a
matching line. -/
theorem claim_C8 (concepts : List Concept) (files : List ScanFile)
    (hnd : (concepts.map (fun d => d.id)).Nodup) (c : Concept)
    (hc : c ∈ concepts) :
    ((mapLookup (scanAllConcepts concepts files) c.id).isSome = true ↔
      ∃ f ∈ files, ∃ line ∈ f.lines, lineMatches c.name line = true) ∧
    (∀ locs, mapLookup (scanAllConcepts concepts files) c.id = some locs →
      locs = scanForConcept c files) ∧
    (∀ loc, loc ∈ scanForConcept c files ↔
      ∃ f ∈ files, ∃ i line, f.lines[i]? = some line ∧
        lineMatches c.name line = true ∧
        loc = ⟨f.relPath, i + 1, trimTruncate line⟩) := by
  have hmain : mapLookup (scanAllConcepts concepts files) c.id =
      (if (scanForConcept c files).length > 0 then
        some (scanForConcept c files)
      else none) :=
    scanAll_fold_lookup files concepts [] c hc hnd
  have hexists : 0 < (scanForConcept c files).length ↔
      ∃ f ∈ files, ∃ line ∈ f.lines, lineMatches c.name line = true := by
    rw [List.length_pos_iff_exists_mem]
    constructor
    · rintro ⟨loc, hloc⟩
      obtain ⟨f, hf, i, line, hget, hm, _⟩ :=
        (mem_scanForConcept c files loc).mp hloc
      have hlt := (List.getElem?_eq_some_iff.mp hget).1
      have hmem : line ∈ f.lines :=
        List.mem_iff_getElem.mpr ⟨i, hlt, (List.getElem?_eq_some_iff.mp hget).2⟩
      exact ⟨f, hf, line, hmem, hm⟩
    · rintro ⟨f, hf, line, hline, hm⟩
      obtain ⟨i, hget⟩ := List.mem_iff_getElem?.mp hline
      exact ⟨⟨f.relPath, i + 1, trimTruncate line⟩,
        (mem_scanForConcept c files _).mpr ⟨f, hf, i, line, hget, hm, rfl⟩⟩
  refine ⟨?_, ?_, mem_scanForConcept c files⟩
  · rw [hmain]
    by_cases hl : (scanForConcept c files).length > 0
    · rw [if_pos hl]
      simp only [Option.isSome_some, true_iff]
      exact hexists.mp hl
    · rw [if_neg hl]
      simp only [Option.isSome_none, Bool.false_eq_true, false_iff]
      intro hcon
      exact hl (hexists.mpr hcon)
  · intro locs hlocs
    rw [hmain] at hlocs
    by_cases hl : (scanForConcept c files).length > 0
    · rw [if_pos hl] at hlocs
      exact (Option.some.inj hlocs).symm
    · rw [if_neg hl] at hlocs
      cases hlocs

/-- Closed instantiation of `claim_C8`: scanning a two-file project where
only file "A.ts" mentions useState (on its fifth line) records the
useState concept, and the match location is A.ts line 5. -/
theorem claim_C8_witness :
    ((mapLookup
        (scanAllConcepts
          [⟨"id-u", "useState", "library", none, "x", [], [], "t0", "t0"⟩]
          [⟨"A.ts", ["l1", "l2", "l3", "l4", "const [n] = useState(0);"]⟩,
            ⟨"B.ts", ["nothing here"]⟩])
        "id-u").isSome = true) ∧
    (⟨"A.ts", 5, "const [n] = useState(0);"⟩ : CodeLocation) ∈
      scanForConcept
        ⟨"id-u", "useState", "library", none, "x", [], [], "t0", "t0"⟩
        [⟨"A.ts", ["l1", "l2", "l3", "l4", "const [n] = useState(0);"]⟩,
          ⟨"B.ts", ["nothing here"]⟩] := by
  constructor
  · refine ((claim_C8
        [⟨"id-u", "useState", "library", none, "x", [], [], "t0", "t0"⟩]
        [⟨"A.ts", ["l1", "l2", "l3", "l4", "const [n] = useState(0);"]⟩,
          ⟨"B.ts", ["nothing here"]⟩]
        (by decide)
        ⟨"id-u", "useState", "library", none, "x", [], [], "t0", "t0"⟩
        (by decide)).1).mpr ?_
    refine ⟨⟨"A.ts", ["l1", "l2", "l3", "l4", "const [n] = useState(0);"]⟩,
      by decide, "const [n] = useState(0);", by decide, by decide⟩
  · refine ((claim_C8
        [⟨"id-u", "useState", "library", none, "x", [], [], "t0", "t0"⟩]
        [⟨"A.ts", ["l1", "l2", "l3", "l4", "const [n] = useState(0);"]⟩,
          ⟨"B.ts", ["nothing here"]⟩]
        (by decide)
        ⟨"id-u", "useState", "library", none, "x", [], [], "t0", "t0"⟩
        (by decide)).2.2 _).mpr ?_
    refine ⟨⟨"A.ts", ["l1", "l2", "l3", "l4", "const [n] = useState(0);"]⟩,
      by decide, 4, "const [n] = useState(0);", by decide, by decide, by decide⟩

/-- C9: `load()` returns the cached in-memory store when one exists, and
otherwise degrades any read or parse failure of the backing document
(including a missing file) to a fresh empty store — empty concept list,
version "1.0.0" — rather than surfacing the error; a successful read
yields the parsed store. -/
theorem claim_C9 (now : String) :
    (∀ (s : ConceptStore) (disk : Except String ConceptStore),
      loadStore (some s) disk now = s) ∧
    (∀ e : String, loadStore none (.error e) now = ⟨"1.0.0", [], now⟩ ∧
      (loadStore none (.error e) now).concepts = []) ∧
    (∀ s : ConceptStore, loadStore none (.ok s) now = s) :=
  ⟨fun _ _ => rfl, fun _ => ⟨rfl, rfl⟩, fun _ => rfl⟩

theorem applyUpdates_lastSeen (c : Concept) (u : ConceptUpdates) (now : String) :
    (applyUpdates c u now).lastSeen = now := by
  unfold applyUpdates
  rfl

theorem applyUpdates_name (c : Concept) (u : ConceptUpdates) (now : String) :
    (applyUpdates c u now).name =
      (match u.name with
        | some s => if s = "" then c.name else s
        | none => c.name) := by
  unfold applyUpdates
  cases u.name <;> cases u.explanation <;> cases u.chatSnippet <;>
    cases u.codeLocations <;> simp only [] <;> (try split_ifs) <;> rfl

theorem applyUpdates_explanation (c : Concept) (u : ConceptUpdates)
    (now : String) :
    (applyUpdates c u now).explanation =
      (match u.explanation with
        | some s => if s = "" then c.explanation else s
        | none => c.explanation) := by
  unfold applyUpdates
  cases u.name <;> cases u.explanation <;> cases u.chatSnippet <;>
    cases u.codeLocations <;> simp only [] <;> (try split_ifs) <;> rfl

/-- C10: for an existing concept id, an update payload carrying an
empty-string `name` or an empty-string `explanation` leaves that field
unchanged — the empty string acts like an omitted field and is not
rejected — while the call still succeeds, bumps `lastSeen` to now, and
saves the store. -/
theorem claim_C10 (s : ConceptStore) (id now : String) (u : ConceptUpdates)
    (c : Concept) (hfind : s.concepts.find? (fun d => d.id = id) = some c) :
    ∃ c', (updateConcept s id u now).result = .ok c' ∧
      (updateConcept s id u now).saved = true ∧
      c'.lastSeen = now ∧
      (u.name = some "" → c'.name = c.name) ∧
      (u.explanation = some "" → c'.explanation = c.explanation) := by
  have hstep : updateConcept s id u now =
      ⟨.ok (applyUpdates c u now),
        ⟨s.version, replaceFirstById s.concepts id (applyUpdates c u now), now⟩,
        true⟩ := by
    unfold updateConcept
    rw [hfind]
  rw [hstep]
  refine ⟨applyUpdates c u now, rfl, rfl, applyUpdates_lastSeen c u now, ?_, ?_⟩
  · intro h
    rw [applyUpdates_name, h]
    simp
  · intro h
    rw [applyUpdates_explanation, h]
    simp

/-- Closed instantiation of `claim_C10`: updating with empty-string name
and explanation succeeds and keeps the stored name. -/
theorem claim_C10_witness :
    ∃ c', (updateConcept
        ⟨"1.0.0", [⟨"id-a", "A", "pattern", none, "x", [], [], "t0", "t0"⟩], "t0"⟩
        "id-a" ⟨some "", some "", none, none⟩ "t1").result = .ok c' ∧
      c'.name = "A" := by
  obtain ⟨c', h1, _, _, h4, _⟩ := claim_C10
    ⟨"1.0.0", [⟨"id-a", "A", "pattern", none, "x", [], [], "t0", "t0"⟩], "t0"⟩
    "id-a" "t1" ⟨some "", some "", none, none⟩
    ⟨"id-a", "A", "pattern", none, "x", [], [], "t0", "t0"⟩ (by decide)
  exact ⟨c', h1, by rw [h4 rfl]⟩

end ConceptTracker
